import Mathlib

/-!
Shallow embedding of the flashTrading factor-scoring and backtest engine
(src/short_term_trading and src/modules/fundamental_analysis.py).

Prices, volumes and scores are modelled as rationals: Python floats are
machine rationals and every arithmetic step of the source is field
arithmetic.  Real numbers appear only where the source takes a square
root (the industry z-score denominator).  Comparisons of a standard
deviation with a nonnegative constant are modelled as the equivalent
comparison of the variance with the squared constant, using that the
square root is monotone on nonnegative rationals.

Chinese dataframe columns are rendered as English field names:
日期 = date, 开盘 = op, 收盘 = close, 最高 = high, 最低 = low,
成交量 = volume.
-/

namespace FlashTrading

/-- Arithmetic mean of a list of rationals.  pandas yields NaN on an empty
series; every call site below either guards emptiness as the source does
or is applied to a provably nonempty list, so the 0/0 = 0 convention of
the rationals is inert. -/
def listMean (l : List ℚ) : ℚ := l.sum / (l.length : ℚ)

/-- Population variance (square of numpy std with ddof = 0). -/
def popVar (l : List ℚ) : ℚ :=
  (l.map (fun x => (x - listMean l) ^ 2)).sum / (l.length : ℚ)

/-- Sample variance (square of pandas std with ddof = 1); pandas std of a
single value is NaN, and the only consumer below tests the disjunction
with length < 2 first, exactly where pandas tests isna(std). -/
def sampleVar (l : List ℚ) : ℚ :=
  if l.length < 2 then 0
  else (l.map (fun x => (x - listMean l) ^ 2)).sum / ((l.length : ℚ) - 1)

/-- Python slice l[a:b] with nonnegative bounds; take and drop clamp out of
range bounds exactly as Python slicing does. -/
def pySlice {α : Type} (l : List α) (a b : ℕ) : List α := (l.take b).drop a

/-- Python slice l[-n:], the last n elements (the whole list when it is
shorter than n, matching Python). -/
def lastSlice {α : Type} (l : List α) (n : ℕ) : List α := l.drop (l.length - n)

/-- Dataframe row access df.iloc[j] for a nonnegative position.  Out of
range access raises in pandas; it is modelled by the default element and
is unreachable under the index bounds assumed by every theorem below. -/
def ilocN {α : Type} [Inhabited α] (l : List α) (j : ℕ) : α := l.getD j default

/-- Dataframe row access df.iloc[j] for a possibly negative position:
Python resolves a negative j to len + j.  The source reaches j = -1 when
calculate_score is called at index 0. -/
def ilocZ {α : Type} [Inhabited α] (l : List α) (j : ℤ) : α :=
  if j < 0 then l.getD (l.length - (-j).toNat) default else l.getD j.toNat default

/-- pandas pct_change followed by dropna: consecutive relative changes.
A zero previous value would give inf (kept) or NaN (dropped) in pandas;
division by zero is 0 in the rationals.  No claim below exercises a zero
close inside such a window. -/
def pctChanges : List ℚ → List ℚ
  | [] => []
  | [_] => []
  | x :: y :: t => (y - x) / x :: pctChanges (y :: t)

/-- pandas diff followed by dropna: consecutive differences. -/
def diffs : List ℚ → List ℚ
  | [] => []
  | [_] => []
  | x :: y :: t => (y - x) :: diffs (y :: t)

/-- Maximum of a list; none models the NaN that pandas produces on an
empty series (every comparison with NaN is false). -/
def listMaxQ : List ℚ → Option ℚ
  | [] => none
  | x :: xs =>
    some (match listMaxQ xs with
      | none => x
      | some m => max x m)

/-- Minimum of a list, with the same NaN convention as listMaxQ. -/
def listMinQ : List ℚ → Option ℚ
  | [] => none
  | x :: xs =>
    some (match listMinQ xs with
      | none => x
      | some m => min x m)

/-- One OHLCV row of a per-symbol history (one PriceBar). -/
structure Bar where
  date : ℕ
  op : ℚ
  high : ℚ
  low : ℚ
  close : ℚ
  volume : ℚ
deriving DecidableEq, Repr

instance : Inhabited Bar := ⟨{ date := 0, op := 0, high := 0, low := 0, close := 0, volume := 0 }⟩

/-- FundamentalMomentumAlgorithm.calculate_score (algorithms.py lines
79-139).  The source also reads df.iloc[max(0, idx-20)] into prev_20 but
never uses its close; the pure read is omitted.  The volatility band is
the numpy population std of the 20-bar pct changes compared with 0.03 and
0.05; it is modelled as the variance compared with the squared bounds
(std is the nonnegative square root, so the comparisons are equivalent),
and an empty pct-change list (numpy std NaN) earns no bonus. -/
def momentumScore (df : List Bar) (idx : ℕ) : ℚ :=
  let current := ilocN df idx
  let prev1 := ilocZ df ((idx : ℤ) - 1)
  let prev5 := ilocN df (idx - 5)
  let prev10 := ilocN df (idx - 10)
  let cc := current.close
  let p1 := prev1.close
  let p5 := prev5.close
  let p10 := prev10.close
  let s1 : ℚ := if 0 < p1 then (if 0 < (cc - p1) / p1 then 10 else -5) else 0
  let s2 : ℚ :=
    if 0 < p5 then
      (if 3/100 < (cc - p5) / p5 then 15 else if 0 < (cc - p5) / p5 then 10 else 0)
    else 0
  let s3 : ℚ :=
    if 0 < p10 then
      (if 5/100 < (cc - p10) / p10 then 20 else if 0 < (cc - p10) / p10 then 10 else 0)
    else 0
  let ma5 := listMean ((pySlice df (idx - 4) (idx + 1)).map Bar.close)
  let ma10 := listMean ((pySlice df (idx - 9) (idx + 1)).map Bar.close)
  let ma20 := listMean ((pySlice df (idx - 19) (idx + 1)).map Bar.close)
  let s4 : ℚ := (if ma5 < cc then 10 else 0) + (if ma10 < ma5 then 10 else 0) +
    (if ma20 < ma10 then 10 else 0)
  let pcs := pctChanges ((pySlice df (idx - 19) (idx + 1)).map Bar.close)
  let s5 : ℚ :=
    if 0 < p1 then
      (if pcs = [] then 0
       else if popVar pcs < 9/10000 then 10
       else if popVar pcs < 25/10000 then 5
       else 0)
    else 0
  let vr : ℚ :=
    if 0 < idx then current.volume / listMean ((pySlice df (idx - 9) idx).map Bar.volume)
    else 1
  let s6 : ℚ := if 3/2 ≤ vr ∧ vr ≤ 3 then 15 else if 3 < vr then 10 else 0
  s1 + s2 + s3 + s4 + s5 + s6

/-- MeanReversionAlgorithm.calculate_rsi (algorithms.py lines 224-239);
period is always the default 14 at the call sites. -/
def calculateRsi (df : List Bar) (idx : ℕ) (period : ℕ) : ℚ :=
  if idx < period then 50
  else
    let prices := (pySlice df (idx - period) (idx + 1)).map Bar.close
    let delta := diffs prices
    let gain := listMean (delta.map (fun d => if 0 < d then d else 0))
    let loss := listMean (delta.map (fun d => if d < 0 then -d else 0))
    if loss = 0 then 100 else 100 - 100 / (1 + gain / loss)

/-- MeanReversionAlgorithm.calculate_score (algorithms.py lines 177-222).
The source reads prev_10 but never uses its close; the pure read is
omitted. -/
def meanReversionScore (df : List Bar) (idx : ℕ) : ℚ :=
  let current := ilocN df idx
  let prev1 := ilocZ df ((idx : ℤ) - 1)
  let prev5 := ilocN df (idx - 5)
  let cc := current.close
  let p1 := prev1.close
  let p5 := prev5.close
  let s1 : ℚ :=
    if 0 < p1 then
      (if (cc - p1) / p1 < -(3/100) then 20
       else if (cc - p1) / p1 < -(2/100) then 15
       else if (cc - p1) / p1 < -(1/100) then 10
       else 0)
    else 0
  let s2 : ℚ :=
    if 0 < p5 then
      (if (cc - p5) / p5 < -(8/100) then 25
       else if (cc - p5) / p5 < -(5/100) then 20
       else 0)
    else 0
  let ma20 := listMean ((pySlice df (idx - 19) (idx + 1)).map Bar.close)
  let s3 : ℚ :=
    if 0 < ma20 then
      (if (cc - ma20) / ma20 < -(8/100) then 25
       else if (cc - ma20) / ma20 < -(5/100) then 20
       else if (cc - ma20) / ma20 < -(3/100) then 15
       else 0)
    else 0
  let rsi := calculateRsi df idx 14
  let s4 : ℚ := if rsi < 30 then 20 else if rsi < 40 then 10 else 0
  s1 + s2 + s3 + s4

/-- BreakoutAlgorithm.calculate_score (algorithms.py lines 277-309).
high_20 is the max over the previous 20 bars; on an empty window pandas
gives NaN and both comparisons are false, modelled by the none case. -/
def breakoutScore (df : List Bar) (idx : ℕ) : ℚ :=
  let current := ilocN df idx
  let prev1 := ilocZ df ((idx : ℤ) - 1)
  let prev20 := pySlice df (idx - 20) idx
  let cc := current.close
  let ch := current.high
  let p1 := prev1.close
  let s1 : ℚ :=
    match listMaxQ (prev20.map Bar.high) with
    | none => 0
    | some m => (if m < cc then 30 else 0) + (if m < ch then 20 else 0)
  let s2 : ℚ :=
    if 0 < p1 then
      (if 3/100 < (cc - p1) / p1 then 20
       else if 2/100 < (cc - p1) / p1 then 15
       else 0)
    else 0
  let vr : ℚ :=
    if prev20 ≠ [] then current.volume / listMean (prev20.map Bar.volume) else 1
  let s3 : ℚ := if 2 < vr then 25 else if 3/2 < vr then 15 else 0
  s1 + s2 + s3

/-- Exponentially weighted recursion y(i) = alpha·x(i) + (1−alpha)·y(i−1)
continuing from a given previous value. -/
def emaStep (alpha : ℚ) : ℚ → List ℚ → List ℚ
  | _, [] => []
  | prev, x :: xs =>
    let y := alpha * x + (1 - alpha) * prev
    y :: emaStep alpha y xs

/-- Exponentially weighted mean seeded with the first element: both the
numpy loop of calculate_ema and pandas ewm(adjust=False) compute this. -/
def ewmMean (alpha : ℚ) : List ℚ → List ℚ
  | [] => []
  | x :: xs => x :: emaStep alpha x xs

/-- MACDAlgorithm.calculate_ema (advanced_algorithms.py lines 84-90):
ema[0] = data[0], ema[i] = alpha·data[i] + (1−alpha)·ema[i−1] with
alpha = 2/(period+1).  numpy would raise on an empty array; the source
always passes at least one close. -/
def calculateEma (data : List ℚ) (period : ℕ) : List ℚ :=
  ewmMean (2 / ((period : ℚ) + 1)) data

/-- numpy arr[-1] (guarded by length checks at every use site). -/
def lastD (l : List ℚ) : ℚ := l.getD (l.length - 1) 0

/-- numpy arr[-2] (guarded by length checks at every use site). -/
def last2D (l : List ℚ) : ℚ := l.getD (l.length - 2) 0

/-- Closes up to and including the evaluation index:
df[close].iloc[:idx+1].values. -/
def closesUpTo (df : List Bar) (idx : ℕ) : List ℚ := (df.map Bar.close).take (idx + 1)

/-- DIF line: EMA(12) − EMA(26) of the closes. -/
def macdDif (closes : List ℚ) : List ℚ :=
  List.zipWith (fun a b => a - b) (calculateEma closes 12) (calculateEma closes 26)

/-- DEA signal line: EMA(9) of the DIF line. -/
def macdDea (closes : List ℚ) : List ℚ := calculateEma (macdDif closes) 9

/-- MACDAlgorithm.calculate_score (advanced_algorithms.py lines 51-82). -/
def macdScore (df : List Bar) (idx : ℕ) : ℚ :=
  let closes := closesUpTo df idx
  let dif := macdDif closes
  let dea := macdDea closes
  let macdBar := List.zipWith (fun a b => (a - b) * 2) dif dea
  let s1 : ℚ :=
    if 2 ≤ dif.length ∧ 2 ≤ dea.length then
      (if last2D dif ≤ last2D dea ∧ lastD dea < lastD dif then
        30 + (if 0 < lastD dif then 20 else 0)
       else 0) +
      (if 2 ≤ macdBar.length then
        (if 0 < lastD macdBar ∧ last2D macdBar < lastD macdBar then 15 else 0)
       else 0)
    else 0
  let s2 : ℚ := if 1 ≤ dif.length then (if 0 < lastD dif then 10 else 0) else 0
  s1 + s2

/-- pandas rolling(w, min_periods=1).min over a list: at position t the
minimum of the window [t−w+1, t] clamped at 0.  The window is never empty
for t inside the list, so the none case is unreachable. -/
def rollMin (l : List ℚ) (w : ℕ) : List ℚ :=
  (List.range l.length).map (fun t =>
    match listMinQ (pySlice l (t + 1 - w) (t + 1)) with
    | none => 0
    | some m => m)

/-- pandas rolling(w, min_periods=1).max over a list. -/
def rollMax (l : List ℚ) (w : ℕ) : List ℚ :=
  (List.range l.length).map (fun t =>
    match listMaxQ (pySlice l (t + 1 - w) (t + 1)) with
    | none => 0
    | some m => m)

/-- RSV column of calculate_kdj: (close − low)/(high − low)·100 with the
NaN of the 0/0 case filled with 50.  For OHLC data low ≤ close ≤ high, so
a zero range forces close = low and the quotient is exactly the 0/0 case
that fillna(50) replaces. -/
def kdjRsv (sl : List Bar) (n : ℕ) : List ℚ :=
  let lows := rollMin (sl.map Bar.low) n
  let highs := rollMax (sl.map Bar.high) n
  (List.range sl.length).map (fun t =>
    let c := (sl.map Bar.close).getD t 0
    let lo := lows.getD t 0
    let hi := highs.getD t 0
    if hi - lo = 0 then 50 else (c - lo) / (hi - lo) * 100)

/-- KDJAlgorithm.calculate_kdj (advanced_algorithms.py lines 157-173) with
the default n = 9, m1 = m2 = 3 used at every call site; ewm(com=2,
adjust=False) has alpha = 1/3.  Called with index −1 the Python guard
idx < n yields None, as does the truncated index 0 here. -/
def calculateKdj (df : List Bar) (idx : ℕ) : Option (ℚ × ℚ × ℚ) :=
  if idx < 9 then none
  else
    let sl := pySlice df (idx - 14) (idx + 1)
    let rsv := kdjRsv sl 9
    let k := ewmMean (1/3) rsv
    let d := ewmMean (1/3) k
    let j := List.zipWith (fun a b => 3 * a - 2 * b) k d
    some (lastD k, lastD d, lastD j)

/-- KDJAlgorithm.calculate_score (advanced_algorithms.py lines 128-155).
The previous-day J value is unpacked but unused in the source. -/
def kdjScore (df : List Bar) (idx : ℕ) : ℚ :=
  match calculateKdj df idx with
  | none => 0
  | some (k, d, j) =>
    let s1 : ℚ :=
      match calculateKdj df (idx - 1) with
      | none => 0
      | some (kp, dp, _) =>
        if kp ≤ dp ∧ d < k then
          25 + (if k < 30 then 20 else if k < 40 then 10 else 0)
        else 0
    let s2 : ℚ := if k < 20 then 15 else if k < 30 then 10 else 0
    let s3 : ℚ := if j < 0 then 20 else if j < 10 then 10 else 0
    s1 + s2 + s3

/-- close ≤ ma − 2·std where std is the nonnegative square root of the
variance v: equivalent to close ≤ ma together with 4·v ≤ (ma − close)²,
which avoids the square root. -/
def LeLowerBand (x ma v : ℚ) : Prop := x ≤ ma ∧ 4 * v ≤ (ma - x) ^ 2

instance (x ma v : ℚ) : Decidable (LeLowerBand x ma v) := by
  unfold LeLowerBand; infer_instance

/-- BOLLAlgorithm.calculate_score (advanced_algorithms.py lines 211-241).
ma20 and std20 use the last 20 closes of the 26-bar slice (the whole
slice when shorter); the computed upper band is never used in the source
and is omitted.  Band comparisons are modelled through LeLowerBand. -/
def bollScore (df : List Bar) (idx : ℕ) : ℚ :=
  let closes := (pySlice df (idx - 25) (idx + 1)).map Bar.close
  let w := if 20 ≤ closes.length then lastSlice closes 20 else closes
  let ma20 := listMean w
  let var20 := popVar w
  let cc := lastD closes
  let pc := if 2 ≤ closes.length then last2D closes else cc
  let s1 : ℚ := if LeLowerBand cc ma20 var20 then 30 + (if pc < cc then 20 else 0) else 0
  let s2 : ℚ := if LeLowerBand pc ma20 var20 ∧ ¬ LeLowerBand cc ma20 var20 then 25 else 0
  let s3 : ℚ := if ma20 < cc ∧ pc ≤ ma20 then 20 else 0
  let s4 : ℚ := if ma20 < cc then 10 else 0
  s1 + s2 + s3 + s4

/-- TripleIndicatorAlgorithm.calculate_macd_score (advanced_algorithms.py
lines 293-308). -/
def tripleMacdScore (df : List Bar) (idx : ℕ) : ℚ :=
  let closes := closesUpTo df idx
  let dif := macdDif closes
  let dea := macdDea closes
  if 2 ≤ dif.length ∧ 2 ≤ dea.length then
    (if last2D dif ≤ last2D dea ∧ lastD dea < lastD dif then
      20 + (if 0 < lastD dif then 10 else 0)
     else 0)
  else 0

/-- TripleIndicatorAlgorithm.calculate_rsi_score (advanced_algorithms.py
lines 310-333). -/
def tripleRsiScore (df : List Bar) (idx : ℕ) : ℚ :=
  if idx < 14 then 0
  else
    let prices := (pySlice df (idx - 14) (idx + 1)).map Bar.close
    let delta := diffs prices
    let gain := listMean (delta.map (fun d => if 0 < d then d else 0))
    let loss := listMean (delta.map (fun d => if d < 0 then -d else 0))
    let rsi := if loss = 0 then 100 else 100 - 100 / (1 + gain / loss)
    if rsi < 30 then 20 else if rsi < 40 then 10 else 0

/-- TripleIndicatorAlgorithm.calculate_boll_score (advanced_algorithms.py
lines 335-350). -/
def tripleBollScore (df : List Bar) (idx : ℕ) : ℚ :=
  let closes := (pySlice df (idx - 25) (idx + 1)).map Bar.close
  let w := if 20 ≤ closes.length then lastSlice closes 20 else closes
  if LeLowerBand (lastD closes) (listMean w) (popVar w) then 20 else 0

/-- TripleIndicatorAlgorithm.calculate_score (advanced_algorithms.py lines
279-291): the three sub scores plus a resonance bonus. -/
def tripleScore (df : List Bar) (idx : ℕ) : ℚ :=
  let m := tripleMacdScore df idx
  let r := tripleRsiScore df idx
  let b := tripleBollScore df idx
  m + r + b + (if 20 < m ∧ 15 < r ∧ 15 < b then 30 else 0)

/-- One trade record (backtest.py lines 18-41): the derived fields are
computed at construction and never change. -/
structure Trade where
  code : String
  buy_date : ℕ
  buy_price : ℚ
  sell_date : ℕ
  sell_price : ℚ
  return_rate : ℚ
  profit : ℚ
  is_win : Bool
deriving DecidableEq, Repr

/-- Trade.__init__: return_rate is (sell − buy)/buy when buy > 0 and 0
otherwise; is_win is return_rate > 0. -/
def mkTrade (code : String) (buy_date : ℕ) (buy_price : ℚ) (sell_date : ℕ)
    (sell_price : ℚ) : Trade :=
  let rr : ℚ := if 0 < buy_price then (sell_price - buy_price) / buy_price else 0
  { code := code, buy_date := buy_date, buy_price := buy_price,
    sell_date := sell_date, sell_price := sell_price,
    return_rate := rr, profit := sell_price - buy_price,
    is_win := decide (0 < rr) }

/-- Returns of the winning trades, in trade order. -/
def winReturns (trades : List Trade) : List ℚ :=
  (trades.filter (fun t => t.is_win)).map Trade.return_rate

/-- Returns of the losing trades (is_win false), in trade order. -/
def loseReturns (trades : List Trade) : List ℚ :=
  (trades.filter (fun t => ! t.is_win)).map Trade.return_rate

/-- avg_win: mean of the winning returns, 0 when there are none. -/
def avgWinOf (trades : List Trade) : ℚ :=
  if winReturns trades = [] then 0 else listMean (winReturns trades)

/-- avg_lose: mean of the losing returns, 0 when there are none. -/
def avgLoseOf (trades : List Trade) : ℚ :=
  if loseReturns trades = [] then 0 else listMean (loseReturns trades)

/-- numpy cumsum continuing from an accumulator. -/
def cumsumFrom (acc : ℚ) : List ℚ → List ℚ
  | [] => []
  | x :: xs => (acc + x) :: cumsumFrom (acc + x) xs

/-- numpy cumsum. -/
def cumsum (l : List ℚ) : List ℚ := cumsumFrom 0 l

/-- numpy maximum.accumulate continuing from a running maximum. -/
def runMaxFrom (acc : ℚ) : List ℚ → List ℚ
  | [] => []
  | x :: xs => max acc x :: runMaxFrom (max acc x) xs

/-- numpy maximum.accumulate: running peak of the cumulative returns. -/
def runningMax : List ℚ → List ℚ
  | [] => []
  | x :: xs => x :: runMaxFrom x xs

/-- The statistics dict of BacktestResult.calculate_statistics.  The
annual-return entry needs a real exponent (capital ratio to the power of
1/years) and depends on the start and end dates, none of which any
verified property touches; it and the capital and date echo fields are
not carried.  All other entries are carried verbatim. -/
structure BacktestStats where
  total_trades : ℕ
  win_trades : ℕ
  lose_trades : ℕ
  win_rate : ℚ
  avg_return : ℚ
  total_return : ℚ
  avg_win : ℚ
  avg_lose : ℚ
  max_win : ℚ
  max_lose : ℚ
  profit_loss_ratio : ℚ
  max_drawdown : ℚ
deriving DecidableEq, Repr

/-- BacktestResult.calculate_statistics (backtest.py lines 58-119): the
empty dict returned for a trade-less result is modelled as none.  Every
partial operation of the source (means, maxima) is guarded exactly where
the source guards it, so the computation is total: no input raises. -/
def calculateStatistics (trades : List Trade) : Option BacktestStats :=
  if trades = [] then none
  else
    let total := trades.length
    let wins := (trades.filter (fun t => t.is_win)).length
    let winRate : ℚ := if 0 < total then (wins : ℚ) / (total : ℚ) else 0
    let returns := trades.map Trade.return_rate
    let avgWin := avgWinOf trades
    let avgLose := avgLoseOf trades
    let maxWin : ℚ := match listMaxQ (winReturns trades) with
      | none => 0
      | some m => m
    let maxLose : ℚ := match listMinQ (loseReturns trades) with
      | none => 0
      | some m => m
    let plr : ℚ := if avgLose ≠ 0 then |avgWin / avgLose| else 0
    let cumulative := cumsum returns
    let drawdown := List.zipWith (fun p c => p - c) (runningMax cumulative) cumulative
    let maxDd : ℚ := match listMaxQ drawdown with
      | none => 0
      | some m => m
    some
      { total_trades := total
        win_trades := wins
        lose_trades := total - wins
        win_rate := winRate
        avg_return := listMean returns
        total_return := returns.sum
        avg_win := avgWin
        avg_lose := avgLose
        max_win := maxWin
        max_lose := maxLose
        profit_loss_ratio := plr
        max_drawdown := maxDd }

/-- The per-symbol price panel: symbol to date-ordered history, the shape
run_backtest builds before the day loop. -/
abbrev Panel := List (String × List Bar)

/-- stock_data.get(code). -/
def panelGet (panel : Panel) (code : String) : Option (List Bar) :=
  (panel.find? (fun p => p.1 == code)).map (fun p => p.2)

/-- First bar of the history carrying the given date, the row that
df[df[date] == d].index[0] selects (the fetcher resets to a positional
range index, so label and position coincide). -/
def findBar (df : List Bar) (d : ℕ) : Option Bar :=
  df.find? (fun b => b.date == d)

/-- The per-symbol body of the backtest day loop (backtest.py lines
226-245): locate the buy-date bar (buy at its close) and the sell-date
bar (sell at its open); a missing bar skips the symbol silently; a trade
is recorded only when both prices are strictly positive. -/
def tradeFor (panel : Panel) (buyDate sellDate : ℕ) (code : String) : Option Trade :=
  match panelGet panel code with
  | none => none
  | some df =>
    match findBar df buyDate, findBar df sellDate with
    | some bbar, some sbar =>
      if 0 < bbar.close ∧ 0 < sbar.op then
        some (mkTrade code buyDate bbar.close sellDate sbar.op)
      else none
    | _, _ => none

/-- The trade list accumulated by BacktestEngine.run_backtest (backtest.py
lines 217-245): for each consecutive pair of trading days ask the
algorithm (its select_stocks capability, an arbitrary function here) for
candidates at the buy date and record the per-symbol trades in order.
Panel download and calendar retrieval are the external collaborators of
the engine and enter as the panel and tradingDays arguments. -/
def runBacktestTrades (select : Panel → ℕ → ℕ → List String) (panel : Panel)
    (tradingDays : List ℕ) (topN : ℕ) : List Trade :=
  (tradingDays.zip tradingDays.tail).foldl
    (fun acc day => acc ++ ((select panel day.1 topN).filterMap (tradeFor panel day.1 day.2)))
    []

/-- pandas Series.quantile with the default linear interpolation: on the
ascending sort s of the data, position h = p·(n−1), the result is
s[j] + g·(s[j+1] − s[j]) with j = ⌊h⌋ and g = h − j.  An empty series
gives NaN in pandas; the 0 returned here is inert because clipping an
empty column clips nothing. -/
def quantileQ (xs : List ℚ) (p : ℚ) : ℚ :=
  let s := xs.insertionSort (fun a b => a ≤ b)
  if s.length = 0 then 0
  else
    let h : ℚ := p * ((s.length : ℚ) - 1)
    let j : ℕ := (Int.floor h).toNat
    let g : ℚ := h - (j : ℚ)
    let a := s.getD j 0
    let b := s.getD (j + 1) a
    a + g * (b - a)

/-- Series.clip(lower=lo, upper=hi), elementwise min (max x lo) hi. -/
def clipQ (lo hi x : ℚ) : ℚ := min (max x lo) hi

/-- FundamentalAnalyzer.winsorize (fundamental_analysis.py lines 27-38)
with method=quantile, the only method the alpha pipeline passes (the
3sigma branch is dead code there): clip to the empirical lower and upper
quantiles. -/
def winsorize (values : List ℚ) (lower upper : ℚ) : List ℚ :=
  values.map (clipQ (quantileQ values lower) (quantileQ values upper))

/-- FundamentalAnalyzer.industry_neutralize (fundamental_analysis.py lines
40-49): one row of the groupby transform.  Rows carry an industry key and
a factor value; the group of a row is every row sharing its key, in table
order.  pandas group.std() is the sample standard deviation, NaN for a
single row, so the std == 0 or isna(std) fallback test is exactly group
size < 2 or sample variance = 0; otherwise the z-score divides by the
real square root of the variance. -/
noncomputable def industry_neutralize (rows : List (ℕ × ℚ)) : List ℝ :=
  rows.map (fun r =>
    let g := (rows.filter (fun s => s.1 == r.1)).map (fun s => s.2)
    let m := listMean g
    if g.length < 2 ∨ sampleVar g = 0 then ((r.2 - m : ℚ) : ℝ)
    else ((r.2 - m : ℚ) : ℝ) / Real.sqrt ((sampleVar g : ℚ) : ℝ))

/-- FundamentalAnalyzer.size_neutralize (fundamental_analysis.py lines
51-69).  The two columns of one table (factor and log market cap, missing
cells as none) have equal length.  Valid rows are those present in both
columns; below 10 valid rows the factor passes through.  Otherwise
sklearn LinearRegression fits centered least squares: slope Sxy/Sxx, and
the minimum-norm solution slope 0 when the predictor is degenerate
(Sxx = 0); intercept mean y − slope·mean x.  Valid rows become residuals,
the rest keep their original cell. -/
def size_neutralize (factor size : List (Option ℚ)) : List (Option ℚ) :=
  let valid := (factor.zip size).filterMap (fun p =>
    match p with
    | (some f, some s) => some (f, s)
    | _ => none)
  if valid.length < 10 then factor
  else
    let xs := valid.map (fun p => p.2)
    let xm := listMean xs
    let ym := listMean (valid.map (fun p => p.1))
    let sxx := (xs.map (fun x => (x - xm) ^ 2)).sum
    let slope : ℚ :=
      if sxx = 0 then 0
      else (valid.map (fun p => (p.2 - xm) * (p.1 - ym))).sum / sxx
    (factor.zip size).map (fun p =>
      match p with
      | (some f, some s) => some (f - (slope * s + (ym - slope * xm)))
      | (f, _) => f)

/-- Series.rank(pct=True, ascending=False) with the default
method=average, the ranking applied to alpha_score (fundamental_analysis
line 427): the rank of a value is (count of strictly greater values) plus
(count of equal values + 1)/2 — tied rows share the average of the
positions the tie group occupies in the descending order — divided by the
series length. -/
def rankPctDesc (scores : List ℚ) : List ℚ :=
  scores.map (fun v =>
    (((scores.countP (fun w => decide (v < w))) : ℚ) +
      (((scores.countP (fun w => decide (w = v))) : ℚ) + 1) / 2) / (scores.length : ℚ))

/-! Point-in-time lemmas: every access a score function makes at indices
up to the evaluation index is unchanged when bars are appended. -/

theorem pySlice_append {α : Type} (h e : List α) (b : ℕ) (hb : b ≤ h.length) (a : ℕ) :
    pySlice (h ++ e) a b = pySlice h a b := by
  unfold pySlice
  rw [List.take_append_of_le_length hb]

theorem ilocN_append (h e : List Bar) (j : ℕ) (hj : j < h.length) :
    ilocN (h ++ e) j = ilocN h j := by
  unfold ilocN
  rw [List.getD_append _ _ _ _ hj]

theorem ilocZ_append (h e : List Bar) (j : ℤ) (h0 : 0 ≤ j) (hj : j.toNat < h.length) :
    ilocZ (h ++ e) j = ilocZ h j := by
  unfold ilocZ
  rw [if_neg (by omega), if_neg (by omega), List.getD_append _ _ _ _ hj]

theorem closesUpTo_append (h e : List Bar) (n : ℕ) (hn : n < h.length) :
    closesUpTo (h ++ e) n = closesUpTo h n := by
  have hl : n + 1 ≤ (h.map Bar.close).length := by
    simpa using hn
  unfold closesUpTo
  rw [List.map_append, List.take_append_of_le_length hl]

theorem momentumScore_append (h e : List Bar) (i : ℕ) (h1 : 1 ≤ i) (h2 : i < h.length) :
    momentumScore (h ++ e) i = momentumScore h i := by
  have hz : ((i : ℤ) - 1).toNat < h.length := by omega
  unfold momentumScore
  simp only [pySlice_append h e (i + 1) (by omega), pySlice_append h e i (by omega),
    ilocN_append h e i h2, ilocN_append h e (i - 5) (by omega),
    ilocN_append h e (i - 10) (by omega),
    ilocZ_append h e ((i : ℤ) - 1) (by omega) hz]

theorem calculateRsi_append (h e : List Bar) (i p : ℕ) (h2 : i < h.length) :
    calculateRsi (h ++ e) i p = calculateRsi h i p := by
  unfold calculateRsi
  simp only [pySlice_append h e (i + 1) (by omega)]

theorem meanReversionScore_append (h e : List Bar) (i : ℕ) (h1 : 1 ≤ i)
    (h2 : i < h.length) :
    meanReversionScore (h ++ e) i = meanReversionScore h i := by
  have hz : ((i : ℤ) - 1).toNat < h.length := by omega
  unfold meanReversionScore
  simp only [pySlice_append h e (i + 1) (by omega), ilocN_append h e i h2,
    ilocN_append h e (i - 5) (by omega),
    ilocZ_append h e ((i : ℤ) - 1) (by omega) hz,
    calculateRsi_append h e i 14 h2]

theorem breakoutScore_append (h e : List Bar) (i : ℕ) (h1 : 1 ≤ i) (h2 : i < h.length) :
    breakoutScore (h ++ e) i = breakoutScore h i := by
  have hz : ((i : ℤ) - 1).toNat < h.length := by omega
  unfold breakoutScore
  simp only [pySlice_append h e i (by omega), ilocN_append h e i h2,
    ilocZ_append h e ((i : ℤ) - 1) (by omega) hz]

theorem macdScore_append (h e : List Bar) (i : ℕ) (h2 : i < h.length) :
    macdScore (h ++ e) i = macdScore h i := by
  unfold macdScore
  simp only [closesUpTo_append h e i h2]

theorem calculateKdj_append (h e : List Bar) (i : ℕ) (h2 : i < h.length) :
    calculateKdj (h ++ e) i = calculateKdj h i := by
  unfold calculateKdj
  simp only [pySlice_append h e (i + 1) (by omega)]

theorem kdjScore_append (h e : List Bar) (i : ℕ) (h2 : i < h.length) :
    kdjScore (h ++ e) i = kdjScore h i := by
  unfold kdjScore
  rw [calculateKdj_append h e i h2, calculateKdj_append h e (i - 1) (by omega)]

theorem bollScore_append (h e : List Bar) (i : ℕ) (h2 : i < h.length) :
    bollScore (h ++ e) i = bollScore h i := by
  unfold bollScore
  simp only [pySlice_append h e (i + 1) (by omega)]

theorem tripleMacdScore_append (h e : List Bar) (i : ℕ) (h2 : i < h.length) :
    tripleMacdScore (h ++ e) i = tripleMacdScore h i := by
  unfold tripleMacdScore
  simp only [closesUpTo_append h e i h2]

theorem tripleRsiScore_append (h e : List Bar) (i : ℕ) (h2 : i < h.length) :
    tripleRsiScore (h ++ e) i = tripleRsiScore h i := by
  unfold tripleRsiScore
  simp only [pySlice_append h e (i + 1) (by omega)]

theorem tripleBollScore_append (h e : List Bar) (i : ℕ) (h2 : i < h.length) :
    tripleBollScore (h ++ e) i = tripleBollScore h i := by
  unfold tripleBollScore
  simp only [pySlice_append h e (i + 1) (by omega)]

theorem tripleScore_append (h e : List Bar) (i : ℕ) (h2 : i < h.length) :
    tripleScore (h ++ e) i = tripleScore h i := by
  unfold tripleScore
  rw [tripleMacdScore_append h e i h2, tripleRsiScore_append h e i h2,
    tripleBollScore_append h e i h2]

/-- C1 (amended).  Point-in-time evaluation holds for every signal
algorithm of the family at every index i with 1 ≤ i < length(h):
appending bars after index i never changes calculate_score at i.  The
restriction to i ≥ 1 is forced: at i = 0 the momentum, mean-reversion and
breakout algorithms read df.iloc[idx-1] = df.iloc[-1], which Python
resolves to the LAST bar of the history, so appended bars leak into the
score there (see the counterexample); the MACD, KDJ, Bollinger and
triple-indicator lemmas above hold for i = 0 as well. -/
theorem pointInTime_scores_append (h e : List Bar) (i : ℕ) (h1 : 1 ≤ i)
    (h2 : i < h.length) :
    momentumScore (h ++ e) i = momentumScore h i ∧
    meanReversionScore (h ++ e) i = meanReversionScore h i ∧
    breakoutScore (h ++ e) i = breakoutScore h i ∧
    macdScore (h ++ e) i = macdScore h i ∧
    kdjScore (h ++ e) i = kdjScore h i ∧
    bollScore (h ++ e) i = bollScore h i ∧
    tripleScore (h ++ e) i = tripleScore h i :=
  ⟨momentumScore_append h e i h1 h2, meanReversionScore_append h e i h1 h2,
    breakoutScore_append h e i h1 h2, macdScore_append h e i h2,
    kdjScore_append h e i h2, bollScore_append h e i h2, tripleScore_append h e i h2⟩

/-- Bar of the 2-bar history used by the point-in-time witness and
counterexample: constant OHLC price 10. -/
def barTen : Bar := { date := 1, op := 10, high := 10, low := 10, close := 10, volume := 100 }

/-- Second bar of the witness history: constant OHLC price 11. -/
def barEleven : Bar := { date := 2, op := 11, high := 11, low := 11, close := 11, volume := 100 }

/-- Appended bar: constant OHLC price 5. -/
def barFive : Bar := { date := 3, op := 5, high := 5, low := 5, close := 5, volume := 100 }

/-- C1 witness: the amended point-in-time theorem applied at the concrete
history [10, 11], the appended bar [5] and index 1. -/
theorem pointInTime_scores_append_witness :
    momentumScore ([barTen, barEleven] ++ [barFive]) 1 = momentumScore [barTen, barEleven] 1 ∧
    meanReversionScore ([barTen, barEleven] ++ [barFive]) 1 =
      meanReversionScore [barTen, barEleven] 1 ∧
    breakoutScore ([barTen, barEleven] ++ [barFive]) 1 = breakoutScore [barTen, barEleven] 1 ∧
    macdScore ([barTen, barEleven] ++ [barFive]) 1 = macdScore [barTen, barEleven] 1 ∧
    kdjScore ([barTen, barEleven] ++ [barFive]) 1 = kdjScore [barTen, barEleven] 1 ∧
    bollScore ([barTen, barEleven] ++ [barFive]) 1 = bollScore [barTen, barEleven] 1 ∧
    tripleScore ([barTen, barEleven] ++ [barFive]) 1 = tripleScore [barTen, barEleven] 1 :=
  pointInTime_scores_append [barTen, barEleven] [barFive] 1 (by decide) (by decide)

unseal Rat.add Rat.sub Rat.mul Rat.inv in
/-- C1 counterexample: at the valid index 0 of the one-bar history [10],
appending the bar [5] changes the momentum score (the source reads
df.iloc[-1], the appended bar): the score is -5 before and 10 after the
append. -/
theorem pointInTime_counterexample :
    momentumScore ([barTen] ++ [barFive]) 0 ≠ momentumScore [barTen] 0 := by
  decide

/-- Day-1 bar of the C2 scenario symbol X: close 10. -/
def barDayOne : Bar := { date := 1, op := 10, high := 10, low := 10, close := 10, volume := 100 }

/-- Day-2 bar of the C2 scenario: open 11, close 11. -/
def barDayTwo : Bar := { date := 2, op := 11, high := 11, low := 11, close := 11, volume := 100 }

/-- Day-3 bar of the C2 scenario: open 9. -/
def barDayThree : Bar := { date := 3, op := 9, high := 9, low := 9, close := 9, volume := 100 }

/-- The C2 panel: the single symbol X with its three bars. -/
def panelX : Panel := [("X", [barDayOne, barDayTwo, barDayThree])]

/-- An algorithm that always selects symbol X, the select_stocks capability
stipulated by the scenario. -/
def alwaysSelectX : Panel → ℕ → ℕ → List String := fun _ _ _ => ["X"]

unseal Rat.add Rat.sub Rat.mul Rat.inv in
/-- C2.  On the 3-day calendar [1, 2, 3] with the always-X algorithm and
the scenario prices, run_backtest records exactly the two trades
(buy day 1 at close 10, sell day 2 at open 11) and (buy day 2 at close
11, sell day 3 at open 9), whose returns are 1/10 = +10 percent and
-2/11 = -18.18 percent, and the statistics give win_rate 1/2 and
total_return -9/110 = -8.18 percent. -/
theorem backtest_three_day_scenario :
    runBacktestTrades alwaysSelectX panelX [1, 2, 3] 10 =
      [mkTrade "X" 1 10 2 11, mkTrade "X" 2 11 3 9] ∧
    (runBacktestTrades alwaysSelectX panelX [1, 2, 3] 10).map Trade.return_rate =
      [1/10, -2/11] ∧
    (calculateStatistics (runBacktestTrades alwaysSelectX panelX [1, 2, 3] 10)).map
      BacktestStats.win_rate = some (1/2) ∧
    (calculateStatistics (runBacktestTrades alwaysSelectX panelX [1, 2, 3] 10)).map
      BacktestStats.total_return = some (-9/110) := by
  refine ⟨by decide, by decide, by decide, by decide⟩

/-- Count of winning trades, the win_trades statistic. -/
def winCount (trades : List Trade) : ℕ := (trades.filter (fun t => t.is_win)).length

/-- C9.  calculate_statistics of a trade-less result returns the empty
dict (none) — and the embedded computation is total, so no input raises —
while for every non-empty trade list it returns statistics whose win_rate
is the number of winning trades over the total number of trades. -/
theorem statistics_empty_none_and_winrate :
    calculateStatistics [] = none ∧
    ∀ trades : List Trade, trades ≠ [] →
      ∃ s, calculateStatistics trades = some s ∧
        s.win_rate = (winCount trades : ℚ) / (trades.length : ℚ) := by
  constructor
  · rfl
  · intro trades ht
    unfold calculateStatistics
    rw [if_neg ht]
    refine ⟨_, rfl, ?_⟩
    have hl : 0 < trades.length := List.length_pos.mpr ht
    simp only [if_pos hl]
    rfl

unseal Rat.add Rat.sub Rat.mul Rat.inv in
/-- C9 witness: the win_rate clause applied to a concrete one-trade list
(a winning trade, so win_rate is 1/1). -/
theorem statistics_empty_none_and_winrate_witness :
    ∃ s, calculateStatistics [mkTrade "Y" 4 8 5 10] = some s ∧
      s.win_rate = (winCount [mkTrade "Y" 4 8 5 10] : ℚ) /
        (([mkTrade "Y" 4 8 5 10] : List Trade).length : ℚ) :=
  statistics_empty_none_and_winrate.2 [mkTrade "Y" 4 8 5 10] (by decide)

theorem mem_foldl_append {α β : Type _} (f : β → List α) (l : List β) (acc : List α)
    (t : α) (ht : t ∈ l.foldl (fun acc b => acc ++ f b) acc) :
    t ∈ acc ∨ ∃ b ∈ l, t ∈ f b := by
  induction l generalizing acc with
  | nil => exact Or.inl ht
  | cons x xs ih =>
    rcases ih (acc ++ f x) ht with h | h
    · rcases List.mem_append.mp h with h | h
      · exact Or.inl h
      · exact Or.inr ⟨x, List.mem_cons_self x xs, h⟩
    · rcases h with ⟨b, hb, hfb⟩
      exact Or.inr ⟨b, List.mem_cons_of_mem x hb, hfb⟩

theorem tradeFor_some (panel : Panel) (bd sd : ℕ) (code : String) (t : Trade)
    (ht : tradeFor panel bd sd code = some t) :
    0 < t.buy_price ∧ 0 < t.sell_price ∧
      t.return_rate = (t.sell_price - t.buy_price) / t.buy_price := by
  unfold tradeFor at ht
  split at ht
  · exact absurd ht (by simp)
  · split at ht
    · split at ht
      · next hpos =>
          injection ht with h
          subst h
          refine ⟨?_, ?_, ?_⟩ <;> simp [mkTrade, hpos.1, hpos.2]
      · exact absurd ht (by simp)
    · exact absurd ht (by simp)

/-- C10.  Constructing a Trade never divides by zero: a non-positive buy
price yields return_rate 0 by the constructor guard; and every trade the
backtest loop records has strictly positive buy and sell prices (the
engine guard), so its return is the well-defined (sell − buy)/buy. -/
theorem trade_construction_safe :
    (∀ (code : String) (bd : ℕ) (bp : ℚ) (sd : ℕ) (sp : ℚ), bp ≤ 0 →
      (mkTrade code bd bp sd sp).return_rate = 0) ∧
    (∀ (select : Panel → ℕ → ℕ → List String) (panel : Panel) (days : List ℕ)
      (topN : ℕ) (t : Trade), t ∈ runBacktestTrades select panel days topN →
        0 < t.buy_price ∧ 0 < t.sell_price ∧
          t.return_rate = (t.sell_price - t.buy_price) / t.buy_price) := by
  constructor
  · intro code bd bp sd sp hbp
    simp [mkTrade, not_lt.mpr hbp]
  · intro select panel days topN t ht
    unfold runBacktestTrades at ht
    rcases mem_foldl_append _ _ _ _ ht with h | ⟨day, _, hday⟩
    · exact absurd h (by simp)
    · rcases List.mem_filterMap.mp hday with ⟨code, _, hcode⟩
      exact tradeFor_some panel day.1 day.2 code t hcode

unseal Rat.add Rat.sub Rat.mul Rat.inv in
/-- C10 witness: the zero-guard clause at a zero buy price, and the
positive-price clause at the first trade of the concrete 3-day run. -/
theorem trade_construction_safe_witness :
    (mkTrade "Z" 1 0 2 5).return_rate = 0 ∧
    (0 < (mkTrade "X" 1 10 2 11).buy_price ∧ 0 < (mkTrade "X" 1 10 2 11).sell_price ∧
      (mkTrade "X" 1 10 2 11).return_rate =
        ((mkTrade "X" 1 10 2 11).sell_price - (mkTrade "X" 1 10 2 11).buy_price) /
          (mkTrade "X" 1 10 2 11).buy_price) :=
  ⟨trade_construction_safe.1 "Z" 1 0 2 5 (by decide),
    trade_construction_safe.2 alwaysSelectX panelX [1, 2, 3] 10
      (mkTrade "X" 1 10 2 11) (by decide)⟩

theorem listMean_pos (l : List ℚ) (hne : l ≠ []) (hpos : ∀ x ∈ l, 0 < x) :
    0 < listMean l := by
  unfold listMean
  apply div_pos (List.sum_pos l hpos hne)
  exact_mod_cast List.length_pos.mpr hne

/-- Trades built by the Trade constructor satisfy the is_win definition;
the statistics lemmas assume it. -/
def TradeWF (t : Trade) : Prop := t.is_win = decide (0 < t.return_rate)

theorem mkTrade_wf (code : String) (bd : ℕ) (bp : ℚ) (sd : ℕ) (sp : ℚ) :
    TradeWF (mkTrade code bd bp sd sp) := rfl

theorem winReturns_pos (trades : List Trade) (hwf : ∀ t ∈ trades, TradeWF t) :
    ∀ x ∈ winReturns trades, 0 < x := by
  intro x hx
  unfold winReturns at hx
  rcases List.mem_map.mp hx with ⟨t, htmem, rfl⟩
  have hwin : t.is_win = true := List.of_mem_filter htmem
  rw [hwf t (List.mem_of_mem_filter htmem)] at hwin
  exact of_decide_eq_true hwin

unseal Rat.add Rat.sub Rat.mul Rat.inv in
/-- C6 counterexample: for the single losing trade (buy 10, sell 9,
return -1/10) the computed profit_loss_ratio is 0 — because the mean of
the winning returns is 0 — even though a losing trade exists, refuting
the claimed "0 if and only if there are no losing trades". -/
theorem profit_loss_ratio_counterexample :
    (calculateStatistics [mkTrade "L" 1 10 2 9]).map BacktestStats.profit_loss_ratio =
      some 0 ∧
    loseReturns [mkTrade "L" 1 10 2 9] = [-1/10] := by
  exact ⟨by decide, by decide⟩

/-- C6 (amended).  For every non-empty list of constructor-built trades
the computed profit_loss_ratio equals the absolute ratio of the mean
winning return to the mean losing return whenever the latter is nonzero,
and 0 otherwise; it is 0 exactly when there are no winning trades or the
mean of the losing returns is 0 (which includes, but is not limited to,
the no-losing-trades case the claim states). -/
theorem profit_loss_ratio_amended (trades : List Trade) (hne : trades ≠ [])
    (hwf : ∀ t ∈ trades, TradeWF t) :
    ∃ s, calculateStatistics trades = some s ∧
      s.profit_loss_ratio =
        (if avgLoseOf trades ≠ 0 then |avgWinOf trades / avgLoseOf trades| else 0) ∧
      (s.profit_loss_ratio = 0 ↔ winReturns trades = [] ∨ avgLoseOf trades = 0) ∧
      (loseReturns trades = [] → s.profit_loss_ratio = 0) := by
  unfold calculateStatistics
  rw [if_neg hne]
  have hwin0 : avgWinOf trades = 0 ↔ winReturns trades = [] := by
    constructor
    · intro h0
      by_contra hw
      have := listMean_pos (winReturns trades) hw (winReturns_pos trades hwf)
      rw [avgWinOf, if_neg hw] at h0
      exact absurd h0 (ne_of_gt this)
    · intro hw
      rw [avgWinOf, if_pos hw]
  refine ⟨_, rfl, rfl, ?_, ?_⟩
  · show (if avgLoseOf trades ≠ 0 then |avgWinOf trades / avgLoseOf trades| else 0) = 0 ↔ _
    by_cases hL : avgLoseOf trades = 0
    · simp [hL]
    · rw [if_pos hL, abs_eq_zero, div_eq_zero_iff]
      constructor
      · rintro (hw | hl)
        · exact Or.inl (hwin0.mp hw)
        · exact absurd hl hL
      · rintro (hw | hl)
        · exact Or.inl (hwin0.mpr hw)
        · exact absurd hl hL
  · intro hl
    show (if avgLoseOf trades ≠ 0 then |avgWinOf trades / avgLoseOf trades| else 0) = 0
    rw [avgLoseOf, if_pos hl]
    simp

unseal Rat.add Rat.sub Rat.mul Rat.inv in
/-- C6 witness: the amended theorem applied to a concrete two-trade list
with one winner (+1/4) and one loser (-1/5): the ratio is |(1/4)/(-1/5)|
and is nonzero. -/
theorem profit_loss_ratio_amended_witness :
    ∃ s, calculateStatistics [mkTrade "W" 1 4 2 5, mkTrade "L" 2 5 3 4] = some s ∧
      s.profit_loss_ratio =
        (if avgLoseOf [mkTrade "W" 1 4 2 5, mkTrade "L" 2 5 3 4] ≠ 0 then
          |avgWinOf [mkTrade "W" 1 4 2 5, mkTrade "L" 2 5 3 4] /
            avgLoseOf [mkTrade "W" 1 4 2 5, mkTrade "L" 2 5 3 4]|
         else 0) ∧
      (s.profit_loss_ratio = 0 ↔ winReturns [mkTrade "W" 1 4 2 5, mkTrade "L" 2 5 3 4] = [] ∨
        avgLoseOf [mkTrade "W" 1 4 2 5, mkTrade "L" 2 5 3 4] = 0) ∧
      (loseReturns [mkTrade "W" 1 4 2 5, mkTrade "L" 2 5 3 4] = [] →
        s.profit_loss_ratio = 0) :=
  profit_loss_ratio_amended [mkTrade "W" 1 4 2 5, mkTrade "L" 2 5 3 4] (by decide)
    (by intro t ht
        rcases List.mem_cons.mp ht with rfl | ht
        · exact mkTrade_wf "W" 1 4 2 5
        · rcases List.mem_cons.mp ht with rfl | ht
          · exact mkTrade_wf "L" 2 5 3 4
          · exact absurd ht (by simp))

theorem getD_map {α β : Type _} (l : List α) (f : α → β) (i : ℕ) (hi : i < l.length)
    (d : β) (d0 : α) : (l.map f).getD i d = f (l.getD i d0) := by
  induction l generalizing i with
  | nil => exact absurd hi (by simp)
  | cons x xs ih =>
    cases i with
    | zero => rfl
    | succ n => exact ih n (by simpa using hi)

theorem listMean_all_eq (l : List ℚ) (c : ℚ) (hne : l ≠ []) (hall : ∀ x ∈ l, x = c) :
    listMean l = c := by
  have hlen : (l.length : ℚ) ≠ 0 := by
    exact_mod_cast Nat.pos_iff_ne_zero.mp (List.length_pos.mpr hne)
  have hsum : l.sum = l.length • c := List.sum_eq_card_nsmul l c hall
  rw [listMean, hsum, nsmul_eq_mul, mul_comm, mul_div_assoc, div_self hlen, mul_one]

theorem sampleVar_all_eq (l : List ℚ) (c : ℚ) (hall : ∀ x ∈ l, x = c)
    (hmean : listMean l = c) : sampleVar l = 0 := by
  unfold sampleVar
  split
  · rfl
  · have : (l.map (fun x => (x - listMean l) ^ 2)).sum = 0 := by
      apply List.sum_eq_zero
      intro y hy
      rcases List.mem_map.mp hy with ⟨x, hxmem, rfl⟩
      rw [hall x hxmem, hmean]
      ring
    rw [this, zero_div]

/-- C7.  industry_neutralize sends every member of a group whose values
all coincide to exactly zero, for every group size including a single
member: the group mean equals the common value and the sample variance is
zero (or the size is below 2), so the fallback value-minus-mean path is
taken and yields 0. -/
theorem industry_neutralize_constant_group (rows : List (ℕ × ℚ)) (k : ℕ) (c : ℚ)
    (hg : ∀ r ∈ rows, r.1 = k → r.2 = c) (i : ℕ) (hi : i < rows.length)
    (hk : (rows.getD i (0, 0)).1 = k) :
    (industry_neutralize rows).getD i 0 = 0 := by
  unfold industry_neutralize
  rw [getD_map rows _ i hi 0 (0, 0)]
  have hrmem : rows.getD i (0, 0) ∈ rows := by
    rw [List.getD_eq_getElem rows (0, 0) hi]
    exact List.getElem_mem hi
  have hgall : ∀ x ∈ (rows.filter (fun s => s.1 == (rows.getD i (0, 0)).1)).map
      (fun s => s.2), x = c := by
    intro x hx
    rcases List.mem_map.mp hx with ⟨s, hsmem, rfl⟩
    have hs1 : (s.1 == (rows.getD i (0, 0)).1) = true := (List.mem_filter.mp hsmem).2
    have : s.1 = k := by
      rw [← hk]
      exact beq_iff_eq.mp hs1
    exact hg s (List.mem_of_mem_filter hsmem) this
  have hne : (rows.filter (fun s => s.1 == (rows.getD i (0, 0)).1)).map
      (fun s => s.2) ≠ [] := by
    apply List.ne_nil_of_mem (a := (rows.getD i (0, 0)).2)
    apply List.mem_map_of_mem
    exact List.mem_filter.mpr ⟨hrmem, by simp⟩
  have hmean := listMean_all_eq _ c hne hgall
  have hvar := sampleVar_all_eq _ c hgall hmean
  rw [if_pos (Or.inr hvar), hmean, hg (rows.getD i (0, 0)) hrmem hk]
  norm_num

/-- C7 witness: the constant-group theorem at the concrete table with two
rows of industry 1 and value 5 and one row of industry 2; the first row
neutralizes to 0. -/
theorem industry_neutralize_constant_group_witness :
    (industry_neutralize [(1, 5), (1, 5), (2, 7)]).getD 0 0 = 0 :=
  industry_neutralize_constant_group [(1, 5), (1, 5), (2, 7)] 1 5
    (by decide) 0 (by decide) (by decide)

theorem length_emaStep (alpha : ℚ) (prev : ℚ) (l : List ℚ) :
    (emaStep alpha prev l).length = l.length := by
  induction l generalizing prev with
  | nil => rfl
  | cons x xs ih => simp [emaStep, ih]

theorem length_ewmMean (alpha : ℚ) (l : List ℚ) :
    (ewmMean alpha l).length = l.length := by
  cases l with
  | nil => rfl
  | cons x xs => simp [ewmMean, length_emaStep]

theorem length_macdDea (closes : List ℚ) :
    (macdDea closes).length = (macdDif closes).length := by
  unfold macdDea calculateEma
  exact length_ewmMean _ _

/-- C8.  Whenever the DIF line crosses above the DEA signal line at the
evaluation index (DIF ≤ DEA at the previous position, DIF > DEA at the
last) with DIF positive after the crossing, the MACD score is at least
50 = 30 (cross) + 20 (above zero) before the histogram and standing
bonuses. -/
theorem macd_cross_score_ge (df : List Bar) (idx : ℕ)
    (hlen : 2 ≤ (macdDif (closesUpTo df idx)).length)
    (hc1 : last2D (macdDif (closesUpTo df idx)) ≤ last2D (macdDea (closesUpTo df idx)))
    (hc2 : lastD (macdDea (closesUpTo df idx)) < lastD (macdDif (closesUpTo df idx)))
    (hpos : 0 < lastD (macdDif (closesUpTo df idx))) :
    50 ≤ macdScore df idx := by
  have hdea : 2 ≤ (macdDea (closesUpTo df idx)).length := by
    rw [length_macdDea]
    exact hlen
  simp only [macdScore]
  rw [if_pos ⟨hlen, hdea⟩, if_pos ⟨hc1, hc2⟩, if_pos hpos,
    if_pos (le_trans (by norm_num) hlen), if_pos hpos]
  split_ifs <;> norm_num

/-- Bar with constant OHLC price 1, the first two bars of the C8 witness
series. -/
def barUnit : Bar := { date := 1, op := 1, high := 1, low := 1, close := 1, volume := 1 }

/-- Bar with constant OHLC price 2, the jump bar of the C8 witness
series. -/
def barDouble : Bar := { date := 2, op := 2, high := 2, low := 2, close := 2, volume := 1 }

unseal Rat.add Rat.sub Rat.mul Rat.inv in
/-- C8 witness: on the closes [1, 1, 2] at index 2 the DIF line is
[0, 0, 28/351] and DEA is [0, 0, 28/1755], a crossing with positive DIF,
so the theorem applies (the full score there is 75). -/
theorem macd_cross_score_ge_witness :
    50 ≤ macdScore [barUnit, barUnit, barDouble] 2 :=
  macd_cross_score_ge [barUnit, barUnit, barDouble] 2 (by decide) (by decide)
    (by decide) (by decide)

theorem countP_disjoint_add {α : Type _} (l : List α) (p q : α → Bool)
    (hdisj : ∀ a, ¬(p a = true ∧ q a = true)) :
    l.countP p + l.countP q = l.countP (fun a => p a || q a) := by
  induction l with
  | nil => rfl
  | cons x xs ih =>
    simp only [List.countP_cons]
    cases hp : p x with
    | false =>
      cases hq : q x with
      | false => simp [hp, hq, ← ih]
      | true => simp [hp, hq, ← ih]; omega
    | true =>
      cases hq : q x with
      | false => simp [hp, hq, ← ih]; omega
      | true => exact absurd ⟨hp, hq⟩ (hdisj x)

unseal Rat.add Rat.sub Rat.mul Rat.inv in
/-- C3 counterexample: two rows with the equal alpha_score 1 both receive
the rank 3/4 under the pandas average method — ties are NOT broken by
original ordering and the ranks are NOT all distinct, refuting that part
of the claim at this two-row table. -/
theorem alpha_rank_ties_counterexample :
    rankPctDesc [1, 1] = [3/4, 3/4] ∧ ¬ (rankPctDesc [1, 1]).Nodup := by
  exact ⟨by decide, by decide⟩

/-- C3 (amended).  alpha_score_rank is a monotone transform of
alpha_score that is strictly decreasing across DISTINCT scores: a
strictly greater score gets a strictly smaller rank, and EQUAL scores
share the same (average-method) rank rather than being broken by original
row order, so ranks need not be distinct. -/
theorem alpha_rank_monotone_amended (scores : List ℚ) (i j : ℕ)
    (hi : i < scores.length) (hj : j < scores.length) :
    (scores.getD j 0 < scores.getD i 0 →
      (rankPctDesc scores).getD i 0 < (rankPctDesc scores).getD j 0) ∧
    (scores.getD i 0 = scores.getD j 0 →
      (rankPctDesc scores).getD i 0 = (rankPctDesc scores).getD j 0) := by
  set si := scores.getD i 0 with hsi
  set sj := scores.getD j 0 with hsj
  have hri : (rankPctDesc scores).getD i 0 =
      ((scores.countP (fun w => decide (si < w)) : ℚ) +
        ((scores.countP (fun w => decide (w = si)) : ℚ) + 1) / 2) / (scores.length : ℚ) := by
    unfold rankPctDesc
    exact getD_map scores _ i hi 0 0
  have hrj : (rankPctDesc scores).getD j 0 =
      ((scores.countP (fun w => decide (sj < w)) : ℚ) +
        ((scores.countP (fun w => decide (w = sj)) : ℚ) + 1) / 2) / (scores.length : ℚ) := by
    unfold rankPctDesc
    exact getD_map scores _ j hj 0 0
  constructor
  · intro hlt
    rw [hri, hrj]
    have hn : (0 : ℚ) < (scores.length : ℚ) := by
      exact_mod_cast lt_of_le_of_lt (Nat.zero_le i) hi
    rw [div_lt_div_iff_of_pos_right hn]
    have hsub : scores.countP (fun w => decide (si < w)) +
        scores.countP (fun w => decide (w = si)) ≤
        scores.countP (fun w => decide (sj < w)) := by
      rw [countP_disjoint_add _ _ _ (by
        intro a ⟨h1, h2⟩
        rw [decide_eq_true_eq] at h1 h2
        exact absurd h1 (by rw [h2]; exact lt_irrefl si))]
      apply List.countP_mono_left
      intro a _ ha
      rw [Bool.or_eq_true, decide_eq_true_eq, decide_eq_true_eq] at ha
      rw [decide_eq_true_eq]
      rcases ha with h | h
      · exact lt_trans hlt h
      · rw [h]; exact hlt
    have hsimem : si ∈ scores := by
      rw [hsi, List.getD_eq_getElem scores 0 hi]
      exact List.getElem_mem hi
    have hsjmem : sj ∈ scores := by
      rw [hsj, List.getD_eq_getElem scores 0 hj]
      exact List.getElem_mem hj
    have hei : 0 < scores.countP (fun w => decide (w = si)) :=
      List.countP_pos_iff.mpr ⟨si, hsimem, by simp⟩
    have hej : 0 < scores.countP (fun w => decide (w = sj)) :=
      List.countP_pos_iff.mpr ⟨sj, hsjmem, by simp⟩
    have hsubQ : (scores.countP (fun w => decide (si < w)) : ℚ) +
        (scores.countP (fun w => decide (w = si)) : ℚ) ≤
        (scores.countP (fun w => decide (sj < w)) : ℚ) := by
      exact_mod_cast hsub
    have heiQ : (1 : ℚ) ≤ (scores.countP (fun w => decide (w = si)) : ℚ) := by
      exact_mod_cast hei
    have hejQ : (1 : ℚ) ≤ (scores.countP (fun w => decide (w = sj)) : ℚ) := by
      exact_mod_cast hej
    linarith
  · intro heq
    rw [hri, hrj, heq]

unseal Rat.add Rat.sub Rat.mul Rat.inv in
/-- C3 witness: the amended theorem at the two-row table [2, 1] with
i = 0 and j = 1: the strictly greater score 2 gets rank 1/2, strictly
below the rank 1 of the score 1. -/
theorem alpha_rank_monotone_amended_witness :
    (([2, 1] : List ℚ).getD 1 0 < ([2, 1] : List ℚ).getD 0 0 →
      (rankPctDesc [2, 1]).getD 0 0 < (rankPctDesc [2, 1]).getD 1 0) ∧
    (([2, 1] : List ℚ).getD 0 0 = ([2, 1] : List ℚ).getD 1 0 →
      (rankPctDesc [2, 1]).getD 0 0 = (rankPctDesc [2, 1]).getD 1 0) :=
  alpha_rank_monotone_amended [2, 1] 0 1 (by decide) (by decide)

theorem zip_map_const_filterMap (factor : List (Option ℚ)) (c : ℚ) :
    (factor.zip (factor.map (fun _ => some c))).filterMap (fun p =>
      match p with
      | (some f, some s) => some (f, s)
      | _ => none) = (factor.filterMap id).map (fun f => (f, c)) := by
  induction factor with
  | nil => rfl
  | cons x xs ih =>
    cases x with
    | none => simpa using ih
    | some f => simpa using ih

theorem zip_map_const_residual (factor : List (Option ℚ)) (c m : ℚ) :
    (factor.zip (factor.map (fun _ => some c))).map (fun p =>
      match p with
      | (some f, some s) => some (f - (0 * s + (m - 0 * c)))
      | (f, _) => f) = factor.map (Option.map (fun y => y - m)) := by
  induction factor with
  | nil => rfl
  | cons x xs ih =>
    cases x with
    | none => simpa using ih
    | some f =>
      simp only [List.map_cons, List.zip_cons_cons, ih, List.cons.injEq, and_true]
      rw [show Option.map (fun y => y - m) (some f) = some (f - m) from rfl]
      rw [Option.some.injEq]
      ring

unseal Rat.add Rat.sub Rat.mul Rat.inv in
/-- C5 counterexample: a table of 10 valid rows with constant
logMarketCap 1 and factor column (1, 0, ..., 0): sklearn fits slope 0 and
intercept 1/10 (the factor mean), so size_neutralize returns the CENTERED
column (9/10, -1/10, ..., -1/10), not the input unchanged. -/
theorem size_neutralize_constant_counterexample :
    size_neutralize
        [some 1, some 0, some 0, some 0, some 0, some 0, some 0, some 0, some 0, some 0]
        (List.replicate 10 (some 1)) ≠
      [some 1, some 0, some 0, some 0, some 0, some 0, some 0, some 0, some 0, some 0] := by
  decide

/-- C5 (amended).  With at least 10 valid rows and a constant
logMarketCap column, size_neutralize does NOT return the factor column
unchanged: the degenerate regression has slope 0 and intercept equal to
the mean of the present factor values, so every present cell is replaced
by its residual value-minus-mean — the column comes back centered —
while missing cells pass through.  (Below 10 valid rows the source
returns the input unchanged by the early guard.) -/
theorem size_neutralize_constant_amended (factor : List (Option ℚ)) (c : ℚ)
    (hn : 10 ≤ (factor.filterMap id).length) :
    size_neutralize factor (factor.map (fun _ => some c)) =
      factor.map (Option.map (fun y => y - listMean (factor.filterMap id))) := by
  have hvalid := zip_map_const_filterMap factor c
  simp only [size_neutralize, hvalid]
  have hlen : ¬ (((factor.filterMap id).map (fun f => (f, c))).length < 10) := by
    rw [List.length_map]
    omega
  rw [if_neg hlen]
  have hne : factor.filterMap id ≠ [] := by
    intro h0
    rw [h0] at hn
    exact absurd hn (by simp)
  have hxs : ((factor.filterMap id).map (fun f => (f, c))).map (fun p => p.2) =
      (factor.filterMap id).map (fun _ => c) := by
    rw [List.map_map]
    rfl
  have hys : ((factor.filterMap id).map (fun f => (f, c))).map (fun p => p.1) =
      factor.filterMap id := by
    rw [List.map_map]
    have hid : ((fun p => p.1) ∘ fun f => ((f : ℚ), c)) = id := rfl
    rw [hid, List.map_id]
  have hxm : listMean ((factor.filterMap id).map (fun _ => c)) = c := by
    apply listMean_all_eq _ c (by simpa using hne)
    intro x hx
    rcases List.mem_map.mp hx with ⟨_, _, rfl⟩
    rfl
  simp only [hxs, hys, hxm]
  have hsxx : (((factor.filterMap id).map (fun _ => c)).map (fun x => (x - c) ^ 2)).sum
      = 0 := by
    apply List.sum_eq_zero
    intro y hy
    rcases List.mem_map.mp hy with ⟨x, hx, rfl⟩
    rcases List.mem_map.mp hx with ⟨_, _, rfl⟩
    ring
  simp only [if_pos hsxx]
  exact zip_map_const_residual factor c (listMean (factor.filterMap id))

unseal Rat.add Rat.sub Rat.mul Rat.inv in
/-- C5 witness: the amended theorem at the concrete factor column
(2, 0, ..., 0) of 10 valid rows and constant size 7: the output is the
centered column (9/5, -1/5, ..., -1/5). -/
theorem size_neutralize_constant_amended_witness :
    size_neutralize
        [some 2, some 0, some 0, some 0, some 0, some 0, some 0, some 0, some 0, some 0]
        (([some 2, some 0, some 0, some 0, some 0, some 0, some 0, some 0, some 0,
          some 0] : List (Option ℚ)).map (fun _ => some 7)) =
      ([some 2, some 0, some 0, some 0, some 0, some 0, some 0, some 0, some 0,
        some 0] : List (Option ℚ)).map (Option.map (fun y =>
          y - listMean (([some 2, some 0, some 0, some 0, some 0, some 0, some 0, some 0,
            some 0, some 0] : List (Option ℚ)).filterMap id))) :=
  size_neutralize_constant_amended
    [some 2, some 0, some 0, some 0, some 0, some 0, some 0, some 0, some 0, some 0]
    7 (by decide)

theorem clipQ_monotone (lo hi : ℚ) : Monotone (clipQ lo hi) := by
  intro a b hab
  unfold clipQ
  exact min_le_min (max_le_max hab (le_refl lo)) (le_refl hi)

theorem clipQ_lo_fix (lo hi : ℚ) (hlh : lo ≤ hi) : clipQ lo hi lo = lo := by
  unfold clipQ
  rw [max_self, min_eq_left hlh]

theorem clipQ_hi_fix (lo hi : ℚ) (hlh : lo ≤ hi) : clipQ lo hi hi = hi := by
  unfold clipQ
  rw [max_eq_left hlh, min_self]

theorem clipQ_idem (lo hi x : ℚ) (hlh : lo ≤ hi) :
    clipQ lo hi (clipQ lo hi x) = clipQ lo hi x := by
  unfold clipQ
  have h1 : lo ≤ min (max x lo) hi := le_min (le_max_right x lo) hlh
  rw [max_eq_left h1, min_eq_left (min_le_right (max x lo) hi)]

theorem sorted_getD_mono (l : List ℚ) (hs : l.Sorted (fun a b => a ≤ b)) (a b : ℕ)
    (hab : a ≤ b) (hb : b < l.length) : l.getD a 0 ≤ l.getD b 0 := by
  have ha : a < l.length := lt_of_le_of_lt hab hb
  rw [List.getD_eq_getElem l 0 ha, List.getD_eq_getElem l 0 hb]
  rcases eq_or_lt_of_le hab with rfl | hlt
  · exact le_refl _
  · exact List.pairwise_iff_getElem.mp hs a b ha hb hlt

theorem insertionSort_map_monotone (f : ℚ → ℚ) (hf : Monotone f) (l : List ℚ) :
    (l.map f).insertionSort (fun a b => a ≤ b) =
      (l.insertionSort (fun a b => a ≤ b)).map f := by
  have hperm : List.Perm ((l.map f).insertionSort (fun a b => a ≤ b))
      ((l.insertionSort (fun a b => a ≤ b)).map f) :=
    (List.perm_insertionSort _ _).trans
      (((List.perm_insertionSort (fun a b => a ≤ b) l).map f).symm)
  have hs1 : ((l.map f).insertionSort (fun a b => a ≤ b)).Sorted (fun a b => a ≤ b) :=
    List.sorted_insertionSort _ _
  have hs2 : ((l.insertionSort (fun a b => a ≤ b)).map f).Sorted (fun a b => a ≤ b) :=
    List.Pairwise.map f (fun a b hab => hf hab)
      (List.sorted_insertionSort (fun a b => a ≤ b) l)
  exact List.eq_of_perm_of_sorted hperm hs1 hs2

theorem quantileQ_integral (xs : List ℚ) (p : ℚ) (k : ℕ)
    (hk : p * ((xs.length : ℚ) - 1) = (k : ℚ)) (hne : xs.length ≠ 0) :
    quantileQ xs p = (xs.insertionSort (fun a b => a ≤ b)).getD k 0 := by
  have hslen : (xs.insertionSort (fun a b => a ≤ b)).length = xs.length :=
    (List.perm_insertionSort _ _).length_eq
  unfold quantileQ
  simp only [hslen, hk, if_neg hne, Int.floor_natCast, Int.toNat_natCast, sub_self,
    zero_mul, add_zero]

unseal Rat.add Rat.sub Rat.mul Rat.inv in
/-- C4 counterexample: on the two-point series [0, 100] with the default
bounds (0.01, 0.99), one winsorize gives [1, 99] but winsorizing again
gives [1.98, 98.02] — the clipped series has strictly tighter empirical
quantiles under linear interpolation, so winsorize is NOT idempotent. -/
theorem winsorize_not_idempotent_counterexample :
    winsorize (winsorize [0, 100] (1/100) (99/100)) (1/100) (99/100) ≠
      winsorize [0, 100] (1/100) (99/100) := by
  decide

/-- C4 (amended).  winsorize is idempotent whenever the two quantile
positions lower·(n−1) and upper·(n−1) land exactly on sorted data points
(are natural numbers) — then the quantiles of the clipped series coincide
with the original quantile bounds and a second clip changes nothing.  In
general (fractional interpolation positions, as with bounds 1 and 99
percent on most lengths) a second application tightens further, as the
counterexample shows. -/
theorem winsorize_idempotent_amended (values : List ℚ) (lower upper : ℚ)
    (h0 : 0 ≤ lower) (h1 : lower ≤ upper) (h2 : upper ≤ 1)
    (hL : ∃ k : ℕ, lower * ((values.length : ℚ) - 1) = (k : ℚ))
    (hU : ∃ m : ℕ, upper * ((values.length : ℚ) - 1) = (m : ℚ)) :
    winsorize (winsorize values lower upper) lower upper =
      winsorize values lower upper := by
  rcases hL with ⟨kL, hkL⟩
  rcases hU with ⟨kU, hkU⟩
  by_cases hn0 : values.length = 0
  · rw [List.length_eq_zero.mp hn0]
    rfl
  · have hn1 : (1 : ℚ) ≤ (values.length : ℚ) := by
      exact_mod_cast Nat.one_le_iff_ne_zero.mpr hn0
    have hsorted : (values.insertionSort (fun a b => a ≤ b)).Sorted (fun a b => a ≤ b) :=
      List.sorted_insertionSort _ _
    have hslen : (values.insertionSort (fun a b => a ≤ b)).length = values.length :=
      (List.perm_insertionSort _ _).length_eq
    have hkLq : (kL : ℚ) ≤ (values.length : ℚ) - 1 := by
      rw [← hkL]
      nlinarith [h1.trans h2]
    have hkUq : (kU : ℚ) ≤ (values.length : ℚ) - 1 := by
      rw [← hkU]
      nlinarith
    have hkLn : kL < values.length := by
      have : (kL : ℚ) + 1 ≤ (values.length : ℚ) := by linarith
      exact_mod_cast this
    have hkUn : kU < values.length := by
      have : (kU : ℚ) + 1 ≤ (values.length : ℚ) := by linarith
      exact_mod_cast this
    have hkLU : kL ≤ kU := by
      have hq : (kL : ℚ) ≤ (kU : ℚ) := by
        rw [← hkL, ← hkU]
        nlinarith
      exact_mod_cast hq
    set lo := (values.insertionSort (fun a b => a ≤ b)).getD kL 0 with hlo
    set hi := (values.insertionSort (fun a b => a ≤ b)).getD kU 0 with hhi
    have hlohi : lo ≤ hi :=
      sorted_getD_mono _ hsorted kL kU hkLU (by rw [hslen]; exact hkUn)
    have hq1 : quantileQ values lower = lo := quantileQ_integral values lower kL hkL hn0
    have hq2 : quantileQ values upper = hi := quantileQ_integral values upper kU hkU hn0
    have hw : winsorize values lower upper = values.map (clipQ lo hi) := by
      unfold winsorize
      rw [hq1, hq2]
    have hwlen : (values.map (clipQ lo hi)).length = values.length := List.length_map _ _
    have hwsort : (values.map (clipQ lo hi)).insertionSort (fun a b => a ≤ b) =
        (values.insertionSort (fun a b => a ≤ b)).map (clipQ lo hi) :=
      insertionSort_map_monotone (clipQ lo hi) (clipQ_monotone lo hi) values
    have hqw1 : quantileQ (values.map (clipQ lo hi)) lower = lo := by
      rw [quantileQ_integral (values.map (clipQ lo hi)) lower kL
        (by rw [hwlen]; exact hkL) (by rw [hwlen]; exact hn0)]
      rw [hwsort, getD_map _ _ kL (by rw [hslen]; exact hkLn) 0 0, ← hlo]
      exact clipQ_lo_fix lo hi hlohi
    have hqw2 : quantileQ (values.map (clipQ lo hi)) upper = hi := by
      rw [quantileQ_integral (values.map (clipQ lo hi)) upper kU
        (by rw [hwlen]; exact hkU) (by rw [hwlen]; exact hn0)]
      rw [hwsort, getD_map _ _ kU (by rw [hslen]; exact hkUn) 0 0, ← hhi]
      exact clipQ_hi_fix lo hi hlohi
    rw [hw]
    unfold winsorize
    rw [hqw1, hqw2, List.map_map]
    apply List.map_congr_left
    intro x _
    exact clipQ_idem lo hi x hlohi

unseal Rat.add Rat.sub Rat.mul Rat.inv in
/-- C4 witness: the amended theorem at the series [1, 2, 3, 4, 100] with
bounds (1/4, 3/4): the quantile positions 1 and 3 are integral, the
bounds are the data points 2 and 4, and winsorizing twice equals
winsorizing once (both give [2, 2, 3, 4, 4]). -/
theorem winsorize_idempotent_amended_witness :
    winsorize (winsorize [1, 2, 3, 4, 100] (1/4) (3/4)) (1/4) (3/4) =
      winsorize [1, 2, 3, 4, 100] (1/4) (3/4) :=
  winsorize_idempotent_amended [1, 2, 3, 4, 100] (1/4) (3/4) (by norm_num)
    (by norm_num) (by norm_num) ⟨1, by norm_num⟩ ⟨3, by norm_num⟩

end FlashTrading
